import Mathlib

/-!
Verification development for the agentlinker CLI: a shallow embedding of
the configuration-resolution and link-planning engine together with the
argument handling of `src/cli.tsx`, plus proofs of the specified
properties.
-/

set_option maxHeartbeats 1000000

namespace Agentlinker

/-! ## Extend behaviors (src/core/types.ts, as used throughout cli.tsx) -/

/-- The per-resource-type merge policy. -/
inductive ExtendBehavior where
  | inherit
  | extend
  | override
  | compose
deriving DecidableEq, Repr

/-! ## CLI flag parsing (cli.tsx, getFlagValue / getListFlagValue) -/

/-- JS `a.startsWith(pre)`, modelled character-wise. -/
def strStartsWith (a pre : String) : Bool :=
  pre.data.isPrefixOf a.data

/-- JS `a.slice(n)`, modelled character-wise. -/
def strDrop (a : String) (n : Nat) : String :=
  ⟨a.data.drop n⟩

/-- The character count of a string. -/
def strLen (a : String) : Nat :=
  a.data.length

/-- JS `value.split(c)` for a one-character separator, modelled
character-wise: splitting never yields an empty list. -/
def splitChar (c : Char) : List Char → List (List Char)
  | [] => [[]]
  | x :: xs =>
    match splitChar c xs with
    | [] => if x = c then [[], []] else [[x]]
    | y :: ys => if x = c then [] :: y :: ys else (x :: y) :: ys

/-- A JS whitespace character, as far as `trim` is concerned here. -/
def isWs (c : Char) : Bool :=
  c = ' ' || c = '\t' || c = '\n' || c = '\r'

/-- JS `s.trim()`, modelled character-wise. -/
def strTrim (s : List Char) : List Char :=
  ((s.dropWhile isWs).reverse.dropWhile isWs).reverse

/-- Embedding of `getFlagValue(flag)` from cli.tsx: first look for an
argument of the form `--flag=value`, else for `--flag` followed by a
value that is non-empty (JS truthiness) and does not start with `-`. -/
def getFlagValue (args : List String) (flag : String) : Option String :=
  let pre := "--" ++ flag ++ "="
  match args.find? (fun a => strStartsWith a pre) with
  | some a => some (strDrop a (strLen pre))
  | none =>
    match args.indexOf? ("--" ++ flag) with
    | none => none
    | some i =>
      match args.get? (i + 1) with
      | none => none
      | some nxt => if nxt ≠ "" ∧ ¬ strStartsWith nxt "-" then some nxt else none

/-- Embedding of `getListFlagValue(flag)` from cli.tsx: split the flag
value on commas, trim, drop empties; a missing flag or an empty value
(JS `!value`) yields `none` rather than an empty list. -/
def getListFlagValue (args : List String) (flag : String) : Option (List String) :=
  match getFlagValue args flag with
  | none => none
  | some value =>
    if value = "" then none
    else some ((((splitChar ',' value.data).map strTrim).map String.mk).filter
      (fun s => s ≠ ""))

/-- Embedding of the selection fallback in non-interactive `runCompose`
(cli.tsx): `includeXFlag || existingInclude.x || []`.  In JS any array,
even an empty one, is truthy, so a present flag value always wins. -/
def selectWithFallback (flagVal : Option (List String))
    (existing : Option (List String)) : List String :=
  match flagVal with
  | some v => v
  | none => existing.getD []

/-! ## Non-interactive compose (cli.tsx, runCompose) -/

/-- The behavior table built by `runCompose` and saved into config.yaml. -/
structure Behaviors where
  agentsMd : ExtendBehavior
  commands : ExtendBehavior
  skills : ExtendBehavior
  hooks : ExtendBehavior
deriving DecidableEq, Repr

/-- Embedding of the `behaviors` record built in `runCompose` (cli.tsx):
`commands: selectedCommands.length > 0 ? 'compose' : 'override'`,
likewise for skills, and
`hooks: selectedHooks.length > 0 ? 'compose' : 'inherit'`. -/
def buildBehaviors (agentsMdBehavior : ExtendBehavior)
    (selectedCommands selectedSkills selectedHooks : List String) : Behaviors :=
  { agentsMd := agentsMdBehavior
    commands := if 0 < selectedCommands.length then .compose else .override
    skills := if 0 < selectedSkills.length then .compose else .override
    hooks := if 0 < selectedHooks.length then .compose else .inherit }

/-- The `include` block built by `runCompose`: a key is present only when
its selection list is non-empty. -/
structure IncludeConfig where
  commands : Option (List String)
  skills : Option (List String)
  hooks : Option (List String)
deriving DecidableEq, Repr

/-- Embedding of the `include` record built in `runCompose` (cli.tsx). -/
def buildInclude (selectedCommands selectedSkills selectedHooks : List String) :
    IncludeConfig :=
  { commands := if 0 < selectedCommands.length then some selectedCommands else none
    skills := if 0 < selectedSkills.length then some selectedSkills else none
    hooks := if 0 < selectedHooks.length then some selectedHooks else none }

/-- Embedding of the validation filter in non-interactive `runCompose`
(cli.tsx): keep only the selected names present among the discovered
parent item names. -/
def validateSelections (selected availableNames : List String) : List String :=
  selected.filter (fun c => availableNames.contains c)

/-- The warnings printed by the validation filter: one
`not found in parent, skipping` line per dropped name. -/
def validationWarnings (selected availableNames : List String) : List String :=
  (selected.filter (fun c => ¬ availableNames.contains c)).map
    (fun c => "Warning: item " ++ c ++ " not found in parent, skipping")

/-- The pair (behaviors, include) that non-interactive `runCompose` saves
via `createComposeConfig` + `saveMonorepoConfig`, after validating each
selection against the names discovered at ancestor levels. -/
def runComposeSave (agentsMdBehavior : ExtendBehavior)
    (selC selS selH availC availS availH : List String) :
    Behaviors × IncludeConfig :=
  let c := validateSelections selC availC
  let s := validateSelections selS availS
  let h := validateSelections selH availH
  (buildBehaviors agentsMdBehavior c s h, buildInclude c s h)

/-! ## Effect traces of runChange / runMonorepoChange (cli.tsx) -/

/-- The observable actions of one `runChange` / `runMonorepoChange` call,
in program order.  Only `createBackupSession`, `preflightBackup`,
`applyMigration`, `applyLinkPlan` and `finalizeBackup` touch the
filesystem; everything else is a read or terminal output. -/
inductive Effect where
  | scan
  | printNote (title : String)
  | promptSelect
  | promptConfirm
  | promptMigrationChoices
  | createBackupSession
  | preflightBackup
  | applyMigration
  | applyLinkPlan
  | finalizeBackup
deriving DecidableEq, Repr

/-- The user's answer to the `Apply changes` select prompt. -/
inductive ApplyChoice where
  | force
  | skip
  | back
  | cancel
deriving DecidableEq, Repr

/-- The destructive tail of `runChange`: backup session, preflight,
migration apply, finalize. -/
def applyPhaseChange : List Effect :=
  [.createBackupSession, .preflightBackup, .applyMigration, .finalizeBackup]

/-- The destructive tail of `runMonorepoChange`: backup session,
preflight, link-plan apply, finalize. -/
def applyPhaseMonorepo : List Effect :=
  [.createBackupSession, .preflightBackup, .applyLinkPlan, .finalizeBackup]

/-- Effect trace of `runChange` (cli.tsx): scan, print the plan summary,
then either the dry-run prints followed by return, or the prompts and the
destructive apply phase. -/
def runChangeTrace (mAuto mConf lTasks lConf : Nat) (isDryRun : Bool)
    (choice : ApplyChoice) (confirmOk migResolved : Bool) : List Effect :=
  [Effect.scan, Effect.printNote "Plan summary"] ++
  (if isDryRun then
    (if 0 < mAuto + mConf + lTasks + lConf then
      [Effect.printNote "DRY RUN - Pending changes"] else []) ++
    [Effect.printNote "Complete"]
  else
    let migPhase :=
      if 0 < mConf then
        Effect.promptMigrationChoices ::
          (if migResolved then applyPhaseChange else [])
      else applyPhaseChange
    if 0 < lConf then
      Effect.promptSelect ::
        (match choice with
         | .back => []
         | .cancel => []
         | _ => migPhase)
    else
      Effect.promptConfirm :: (if confirmOk then migPhase else []))

/-- Effect trace of `runMonorepoChange` (cli.tsx): scan, print the plan
summary, return early when there are no changes, else the dry-run prints
or the prompts and the destructive apply phase. -/
def runMonorepoChangeTrace (lChanges lLinkTasks lConf : Nat) (isDryRun : Bool)
    (choice : ApplyChoice) (confirmOk : Bool) : List Effect :=
  [Effect.scan, Effect.printNote "Plan summary"] ++
  (if lChanges = 0 then [Effect.printNote "No changes to apply"]
  else if isDryRun then
    (if 0 < lLinkTasks + lConf then
      [Effect.printNote "DRY RUN - Pending changes"] else []) ++
    [Effect.printNote "Complete"]
  else
    if 0 < lConf then
      Effect.promptSelect ::
        (match choice with
         | .back => []
         | .cancel => []
         | _ => applyPhaseMonorepo)
    else
      Effect.promptConfirm :: (if confirmOk then applyPhaseMonorepo else []))

/-- An effect trace is read-and-print only: it contains no prompt and no
filesystem-touching effect. -/
def destructiveFree (trace : List Effect) : Bool :=
  trace.all (fun e =>
    match e with
    | .scan => true
    | .printNote _ => true
    | _ => false)

/-! ## ChainResolver (spec §4.1; the implementation lives in
src/core/monorepo.ts / src/core/paths.ts, which are not part of the
provided sources) -/

/-- One configuration root in the inheritance chain: its directory path
(as a component list from the filesystem root), its rank (0 = global,
increasing toward the starting directory) and whether it is the level
being resolved. -/
structure ChainLevel where
  path : List String
  rank : Nat
  isCurrent : Bool
deriving DecidableEq, Repr

/-- Modelled from the spec: the directories inspected by the chain walk
(ChainResolver, §4.1, implementation missing from the sources) — every
ancestor directory of the starting directory, from the filesystem root
down to the starting directory itself. -/
def prefixesUp : List String → List (List String)
  | [] => [[]]
  | d :: rest => [] :: (prefixesUp rest).map (fun p => d :: p)

/-- Modelled from the spec: rank assignment for the discovered chain
levels (ChainResolver, §4.1, implementation missing from the sources) —
consecutive ranks in walk order, the level whose directory equals the
starting directory marked as current. -/
def rankLevels (startDir : List String) : List (List String) → Nat → List ChainLevel
  | [], _ => []
  | p :: rest, r => ⟨p, r, p == startDir⟩ :: rankLevels startDir rest (r + 1)

/-- Modelled from the spec: `resolveChain(startDir)` (ChainResolver,
§4.1, implementation missing from the sources) — keep the ancestor
directories that actually contain a configuration root, in walk order
from the global root down to the starting directory, and assign
strictly increasing ranks. -/
def resolveChain (hasRoot : List String → Bool) (startDir : List String) :
    List ChainLevel :=
  rankLevels startDir ((prefixesUp startDir).filter hasRoot) 0

/-! ## ConfigResolver (spec §4.2; src/core/config.ts is not part of the
provided sources) -/

/-- The four resource types of the data model. -/
inductive ResourceType where
  | agentsMd
  | commands
  | skills
  | hooks
deriving DecidableEq, Repr

/-- Modelled from the spec: the recognized shapes of a level's
declaration (§6; src/core/config.ts missing from the sources) — a
boolean, or a per-resource map with an optional default entry. -/
inductive Declaration where
  | bool (b : Bool)
  | perResource (entries : List (ResourceType × ExtendBehavior))
      (dflt : Option ExtendBehavior)
deriving DecidableEq, Repr

/-- Modelled from the spec: the declared behavior of one resource type
(ConfigResolver normalization rules 1-3, §4.2; src/core/config.ts
missing from the sources): `true` means all-inherit, `false` all-
override, and a map falls back to its `default` entry and then to
`inherit`. -/
def declaredBehavior (d : Declaration) (rt : ResourceType) : ExtendBehavior :=
  match d with
  | .bool true => .inherit
  | .bool false => .override
  | .perResource entries dflt =>
    match entries.lookup rt with
    | some b => b
    | none => dflt.getD .inherit

/-- Modelled from the spec: the resolved behavior of one resource type
(ConfigResolver, §4.2; src/core/config.ts missing from the sources) —
the declared behavior, except that with no parent level in the chain
every resource type is forced to `override`. -/
def resolveBehavior (d : Declaration) (hasParent : Bool) (rt : ResourceType) :
    ExtendBehavior :=
  if hasParent then declaredBehavior d rt else .override

/-! ## ResourceDiscoverer output and MergeEngine (spec §4.3-4.4;
src/core/discover.ts and src/core/merge.ts are not part of the provided
sources) -/

/-- A concrete item found at one chain level: name, absolute source
path, and originating level rank. -/
structure DiscoveredItem where
  name : String
  source : String
  rank : Nat
deriving DecidableEq, Repr

/-- Modelled from the spec: "last occurrence of a name wins" over a
discovery-ordered item list (§4.3 ordering invariant: most-distant
ancestor first, current level last; src/core/merge.ts missing from the
sources). -/
def lastWins (items : List DiscoveredItem) (n : String) : Option DiscoveredItem :=
  (items.filter (fun i => i.name = n)).getLast?

/-- Modelled from the spec: the `extend` merge for a collection resource
(§4.4; src/core/merge.ts missing from the sources) — union of all
ancestor items, closer ancestors winning on name collision, overlaid
with current-level items, the current level winning on any collision.
With the §4.3 ordering this is "last occurrence wins" over ancestors
followed by current items. -/
def mergeExtend (ancestors current : List DiscoveredItem) (n : String) :
    Option DiscoveredItem :=
  lastWins (ancestors ++ current) n

/-- Modelled from the spec: the `compose` merge for a collection
resource (§4.4; src/core/merge.ts missing from the sources) — start from
the current-level items, then add ancestor items named by the
include-list, sourced from the nearest ancestor with a matching name; a
name the current level already defines keeps the current-level item and
the requested ancestor item is skipped without error. -/
def mergeCompose (ancestors current : List DiscoveredItem)
    (includeList : List String) (n : String) : Option DiscoveredItem :=
  match lastWins current n with
  | some i => some i
  | none => if includeList.contains n then lastWins ancestors n else none

/-! ## LinkPlanner and TransactionManager (spec §4.5-4.6; src/core/plan.ts,
src/core/apply.ts, src/core/backup.ts, src/core/preflight.ts and
src/core/undo.ts are not part of the provided sources) -/

/-- The filesystem state at one target path. -/
inductive FsEntry where
  | absent
  | file (content : String)
  | dir
  | symlink (dest : String)
deriving DecidableEq, Repr

/-- A filesystem snapshot: the entry at each path. -/
def FsState : Type := String → FsEntry

/-- The planner's classification of one (target, source) pair. -/
inductive PlanItem where
  | create
  | noop
  | replace
  | conflictFile
  | conflictDir
deriving DecidableEq, Repr

/-- Modelled from the spec: the LinkPlanner's per-target state inspection
(§4.5; src/core/plan.ts missing from the sources): absent targets get a
create task, correct symlinks are no-ops, foreign symlinks get a replace
task, and existing files or directories are conflicts. -/
def planItem (fs : FsState) (target source : String) : PlanItem :=
  match fs target with
  | .absent => .create
  | .symlink d => if d = source then .noop else .replace
  | .file _ => .conflictFile
  | .dir => .conflictDir

/-- A classification that goes into the plan's task list. -/
def isTask : PlanItem → Bool
  | .create => true
  | .replace => true
  | _ => false

/-- A classification that goes into the plan's conflict list. -/
def isConflict : PlanItem → Bool
  | .conflictFile => true
  | .conflictDir => true
  | _ => false

/-- Modelled from the spec: the plan's task list over the consumer
registry mappings (§4.5; src/core/plan.ts missing from the sources). -/
def planTasks (fs : FsState) (mappings : List (String × String)) :
    List (String × String) :=
  mappings.filter (fun m => isTask (planItem fs m.1 m.2))

/-- Modelled from the spec: the plan's conflict list over the consumer
registry mappings (§4.5; src/core/plan.ts missing from the sources). -/
def planConflicts (fs : FsState) (mappings : List (String × String)) :
    List (String × String) :=
  mappings.filter (fun m => isConflict (planItem fs m.1 m.2))

/-- Point update of a filesystem snapshot: the target now holds a
symlink to the source. -/
def applyTask (fs : FsState) (target source : String) : FsState :=
  fun x => if x = target then .symlink source else fs x

/-- Modelled from the spec: one apply step of the TransactionManager
(§4.6; src/core/apply.ts missing from the sources): tasks are executed,
no-ops left alone, and conflicts replaced only under the force policy. -/
def applyStep (orig : FsState) (force : Bool) (acc : FsState)
    (m : String × String) : FsState :=
  match planItem orig m.1 m.2 with
  | .create => applyTask acc m.1 m.2
  | .replace => applyTask acc m.1 m.2
  | .noop => acc
  | .conflictFile => if force then applyTask acc m.1 m.2 else acc
  | .conflictDir => if force then applyTask acc m.1 m.2 else acc

/-- Modelled from the spec: `apply(plan, session, forcePolicy)` (§4.6;
src/core/apply.ts missing from the sources), executing the plan computed
against the starting snapshot. -/
def applyPlan (fs : FsState) (mappings : List (String × String))
    (force : Bool) : FsState :=
  mappings.foldl (applyStep fs force) fs

/-- Modelled from the spec: the backup entries recorded by the
TransactionManager before destroying existing content (§4.6;
src/core/backup.ts and src/core/preflight.ts missing from the sources):
every replaced target and every forced conflict is saved with its
original entry before the change. -/
def backupEntry (fs : FsState) (force : Bool) (m : String × String) :
    Option (String × FsEntry) :=
  match planItem fs m.1 m.2 with
  | .replace => some (m.1, fs m.1)
  | .conflictFile => if force then some (m.1, fs m.1) else none
  | .conflictDir => if force then some (m.1, fs m.1) else none
  | _ => none

/-- The backup session contents for a whole plan: one saved entry per
destroyed target. -/
def backupFor (fs : FsState) (mappings : List (String × String))
    (force : Bool) : List (String × FsEntry) :=
  mappings.filterMap (backupEntry fs force)

/-- Restoring a single backup entry: the path gets its saved content
back. -/
def undoStep (acc : FsState) (e : String × FsEntry) : FsState :=
  fun x => if x = e.1 then e.2 else acc x

/-- Modelled from the spec: `undo(scope)` restoring every backed-up path
to its saved content (§4.6; src/core/undo.ts missing from the
sources). -/
def undo (fs : FsState) (backup : List (String × FsEntry)) : FsState :=
  backup.foldl undoStep fs

/-! ## Helper lemmas -/

theorem strDrop_strLen (s : String) : strDrop s (strLen s) = "" := by
  simp only [strDrop, strLen, List.drop_length]

/-! ## Claim theorems -/

/-- C1, counterexample: `runCompose` with an empty hooks selection records
behavior `inherit` for hooks, not `override`, refuting the claim that every
collection resource type degrades to `override` on an empty include-list. -/
theorem composeEmptyHooksNotOverride :
    (buildBehaviors ExtendBehavior.extend [] [] []).hooks = ExtendBehavior.inherit ∧
    (buildBehaviors ExtendBehavior.extend [] [] []).hooks ≠ ExtendBehavior.override := by
  decide

/-- C1, amended: when the compose command is run with an empty selection,
commands and skills record behavior `override`, but hooks records
`inherit`. -/
theorem composeEmptySelectionBehaviors (a : ExtendBehavior)
    (cs ss hs : List String) :
    (buildBehaviors a [] ss hs).commands = ExtendBehavior.override ∧
    (buildBehaviors a cs [] hs).skills = ExtendBehavior.override ∧
    (buildBehaviors a cs ss []).hooks = ExtendBehavior.inherit :=
  ⟨rfl, rfl, rfl⟩

/-- C6: with no parent level in the chain, the resolved behavior of every
resource type is `override` regardless of the declaration; in particular a
declaration `{commands: inherit}` still resolves commands to `override`. -/
theorem noParentForcesOverride (d : Declaration) (rt : ResourceType) :
    resolveBehavior d false rt = ExtendBehavior.override ∧
    resolveBehavior
      (Declaration.perResource [(ResourceType.commands, ExtendBehavior.inherit)] none)
      false ResourceType.commands = ExtendBehavior.override :=
  ⟨rfl, rfl⟩

/-- C10: a list-valued flag supplied with an empty value (the argument is
exactly `--flag=`) makes `getListFlagValue` return `none` rather than an
empty list, so the non-interactive compose selection falls back to the
existing configuration's include list. -/
theorem getListFlagValueEmptyValue (flag : String) (args : List String)
    (existing : List String)
    (hfind : args.find? (fun a => strStartsWith a ("--" ++ flag ++ "=")) =
      some ("--" ++ flag ++ "=")) :
    getListFlagValue args flag = none ∧
    selectWithFallback (getListFlagValue args flag) (some existing) = existing := by
  have hval : getFlagValue args flag = some "" := by
    unfold getFlagValue
    simp only [hfind, strDrop_strLen]
  have hnone : getListFlagValue args flag = none := by
    unfold getListFlagValue
    simp only [hval]
    simp
  exact ⟨hnone, by simp [selectWithFallback, hnone]⟩

/-- C10 witness: `--include-commands=` yields `none` and the existing
include list survives. -/
theorem getListFlagValueEmptyValueWitness :
    (["--include-commands="].find?
      (fun a => strStartsWith a ("--" ++ "include-commands" ++ "=")) =
      some ("--" ++ "include-commands" ++ "=")) ∧
    (getListFlagValue ["--include-commands="] "include-commands" = none ∧
     selectWithFallback (getListFlagValue ["--include-commands="] "include-commands")
       (some ["build.md"]) = ["build.md"]) :=
  ⟨by decide,
   getListFlagValueEmptyValue "include-commands" ["--include-commands="]
     ["build.md"] (by decide)⟩

/-- C5: under `compose`, an include-list name the current level also
defines keeps the current-level item and skips the ancestor item without
error; with parent items build and lint, child item build and include-list
[build, lint], the result is the child's build and the parent's lint. -/
theorem composeShadowedNameSkipped (anc cur : List DiscoveredItem)
    (inc : List String) (n : String) (i : DiscoveredItem)
    (_hinc : inc.contains n = true) (hcur : lastWins cur n = some i) :
    mergeCompose anc cur inc n = some i ∧
    mergeCompose [⟨"build", "p/build", 0⟩, ⟨"lint", "p/lint", 0⟩]
      [⟨"build", "c/build", 1⟩] ["build", "lint"] "build" =
      some ⟨"build", "c/build", 1⟩ ∧
    mergeCompose [⟨"build", "p/build", 0⟩, ⟨"lint", "p/lint", 0⟩]
      [⟨"build", "c/build", 1⟩] ["build", "lint"] "lint" =
      some ⟨"lint", "p/lint", 0⟩ := by
  refine ⟨?_, by decide, by decide⟩
  simp [mergeCompose, hcur]

/-- C5 witness: the build/lint example instantiates the theorem. -/
theorem composeShadowedNameSkippedWitness :
    ((["build", "lint"] : List String).contains "build" = true) ∧
    (lastWins [⟨"build", "c/build", 1⟩] "build" = some ⟨"build", "c/build", 1⟩) ∧
    (mergeCompose [⟨"build", "p/build", 0⟩, ⟨"lint", "p/lint", 0⟩]
      [⟨"build", "c/build", 1⟩] ["build", "lint"] "build" =
      some ⟨"build", "c/build", 1⟩ ∧
    mergeCompose [⟨"build", "p/build", 0⟩, ⟨"lint", "p/lint", 0⟩]
      [⟨"build", "c/build", 1⟩] ["build", "lint"] "build" =
      some ⟨"build", "c/build", 1⟩ ∧
    mergeCompose [⟨"build", "p/build", 0⟩, ⟨"lint", "p/lint", 0⟩]
      [⟨"build", "c/build", 1⟩] ["build", "lint"] "lint" =
      some ⟨"lint", "p/lint", 0⟩) :=
  ⟨by decide, by decide,
   composeShadowedNameSkipped
     [⟨"build", "p/build", 0⟩, ⟨"lint", "p/lint", 0⟩] [⟨"build", "c/build", 1⟩]
     ["build", "lint"] "build" ⟨"build", "c/build", 1⟩ (by decide) (by decide)⟩

theorem destructiveFree_append (l1 l2 : List Effect) :
    destructiveFree (l1 ++ l2) = (destructiveFree l1 && destructiveFree l2) :=
  List.all_append

/-- C4: under `extend` the merged set is the ancestor union overlaid with
current-level items — the current level wins any collision, otherwise the
closest (latest-listed) ancestor wins — and on ancestor items {a, b} with
current items {b, c} the result is exactly a(ancestor), b(current),
c(current) and nothing else. -/
theorem extendMergeUnionOverride (anc cur : List DiscoveredItem) (n : String)
    (m : String) (hma : m ≠ "a") (hmb : m ≠ "b") (hmc : m ≠ "c") :
    mergeExtend anc cur n =
      (match lastWins cur n with
       | some i => some i
       | none => lastWins anc n) ∧
    mergeExtend [⟨"a", "anc/a", 0⟩, ⟨"b", "anc/b", 0⟩]
      [⟨"b", "cur/b", 1⟩, ⟨"c", "cur/c", 1⟩] "a" = some ⟨"a", "anc/a", 0⟩ ∧
    mergeExtend [⟨"a", "anc/a", 0⟩, ⟨"b", "anc/b", 0⟩]
      [⟨"b", "cur/b", 1⟩, ⟨"c", "cur/c", 1⟩] "b" = some ⟨"b", "cur/b", 1⟩ ∧
    mergeExtend [⟨"a", "anc/a", 0⟩, ⟨"b", "anc/b", 0⟩]
      [⟨"b", "cur/b", 1⟩, ⟨"c", "cur/c", 1⟩] "c" = some ⟨"c", "cur/c", 1⟩ ∧
    mergeExtend [⟨"a", "anc/a", 0⟩, ⟨"b", "anc/b", 0⟩]
      [⟨"b", "cur/b", 1⟩, ⟨"c", "cur/c", 1⟩] m = none := by
  refine ⟨?_, by decide, by decide, by decide, ?_⟩
  · unfold mergeExtend lastWins
    rw [List.filter_append, List.getLast?_append]
    cases h : (cur.filter (fun i => i.name = n)).getLast? <;> simp [h]
  · simp [mergeExtend, lastWins, List.filter, Ne.symm hma, Ne.symm hmb, Ne.symm hmc]

/-- C4 witness: the merge rule instantiated at the a/b/c example and a
name outside the merged set. -/
theorem extendMergeUnionOverrideWitness :
    ("z" : String) ≠ "a" ∧ ("z" : String) ≠ "b" ∧ ("z" : String) ≠ "c" ∧
    (mergeExtend [⟨"a", "anc/a", 0⟩, ⟨"b", "anc/b", 0⟩]
        [⟨"b", "cur/b", 1⟩, ⟨"c", "cur/c", 1⟩] "b" =
      (match lastWins [⟨"b", "cur/b", 1⟩, ⟨"c", "cur/c", 1⟩] "b" with
       | some i => some i
       | none => lastWins [⟨"a", "anc/a", 0⟩, ⟨"b", "anc/b", 0⟩] "b") ∧
    mergeExtend [⟨"a", "anc/a", 0⟩, ⟨"b", "anc/b", 0⟩]
      [⟨"b", "cur/b", 1⟩, ⟨"c", "cur/c", 1⟩] "a" = some ⟨"a", "anc/a", 0⟩ ∧
    mergeExtend [⟨"a", "anc/a", 0⟩, ⟨"b", "anc/b", 0⟩]
      [⟨"b", "cur/b", 1⟩, ⟨"c", "cur/c", 1⟩] "b" = some ⟨"b", "cur/b", 1⟩ ∧
    mergeExtend [⟨"a", "anc/a", 0⟩, ⟨"b", "anc/b", 0⟩]
      [⟨"b", "cur/b", 1⟩, ⟨"c", "cur/c", 1⟩] "c" = some ⟨"c", "cur/c", 1⟩ ∧
    mergeExtend [⟨"a", "anc/a", 0⟩, ⟨"b", "anc/b", 0⟩]
      [⟨"b", "cur/b", 1⟩, ⟨"c", "cur/c", 1⟩] "z" = none) :=
  ⟨by decide, by decide, by decide,
   extendMergeUnionOverride [⟨"a", "anc/a", 0⟩, ⟨"b", "anc/b", 0⟩]
     [⟨"b", "cur/b", 1⟩, ⟨"c", "cur/c", 1⟩] "b" "z"
     (by decide) (by decide) (by decide)⟩

/-- C8: a non-interactive compose include name matching no discovered
ancestor item is dropped from the saved include-list, a warning is
emitted for it, and the (total) save still happens. -/
theorem unknownIncludeNameDropped (name : String) (a : ExtendBehavior)
    (selC selS selH availC availS availH : List String)
    (hname : availC.contains name = false) :
    name ∉ validateSelections selC availC ∧
    name ∉ ((runComposeSave a selC selS selH availC availS availH).2.commands.getD []) ∧
    (name ∈ selC →
      ("Warning: item " ++ name ++ " not found in parent, skipping") ∈
        validationWarnings selC availC) := by
  have hnm : name ∉ availC := by simpa using hname
  have hkept : name ∉ validateSelections selC availC := by
    simp [validateSelections, hname, hnm]
  refine ⟨hkept, ?_, ?_⟩
  · simp only [runComposeSave, buildInclude]
    split
    · simpa using hkept
    · simp
  · intro hmem
    simp only [validationWarnings, List.mem_map, List.mem_filter]
    exact ⟨name, ⟨hmem, by simp [hname, hnm]⟩, rfl⟩

/-- C8 witness: the unknown name ghost is dropped and warned about while
the known name build survives validation. -/
theorem unknownIncludeNameDroppedWitness :
    ((["build"] : List String).contains "ghost" = false) ∧
    ("ghost" ∉ validateSelections ["ghost", "build"] ["build"] ∧
     "ghost" ∉ ((runComposeSave ExtendBehavior.extend ["ghost", "build"] [] []
       ["build"] [] []).2.commands.getD []) ∧
     ("ghost" ∈ (["ghost", "build"] : List String) →
       ("Warning: item " ++ "ghost" ++ " not found in parent, skipping") ∈
         validationWarnings ["ghost", "build"] ["build"])) :=
  ⟨by decide,
   unknownIncludeNameDropped "ghost" ExtendBehavior.extend
     ["ghost", "build"] [] [] ["build"] [] [] (by decide)⟩

/-- C9: with the dry-run flag set, both runChange and runMonorepoChange
produce only scan and print effects — the plan summary is printed, and no
backup session, preflight, migration apply, link apply or finalize ever
appears in the trace, so no filesystem path is created, modified or
removed. -/
theorem dryRunMakesNoChanges (mAuto mConf lTasks lConf lChanges : Nat)
    (choice : ApplyChoice) (confirmOk migResolved : Bool) :
    destructiveFree
      (runChangeTrace mAuto mConf lTasks lConf true choice confirmOk migResolved) = true ∧
    destructiveFree
      (runMonorepoChangeTrace lChanges lTasks lConf true choice confirmOk) = true ∧
    Effect.printNote "Plan summary" ∈
      runChangeTrace mAuto mConf lTasks lConf true choice confirmOk migResolved ∧
    Effect.printNote "Plan summary" ∈
      runMonorepoChangeTrace lChanges lTasks lConf true choice confirmOk := by
  refine ⟨?_, ?_, ?_, ?_⟩
  · unfold runChangeTrace
    simp only [destructiveFree_append, if_true]
    split <;> decide
  · unfold runMonorepoChangeTrace
    split
    · decide
    · simp only [destructiveFree_append, if_true]
      split <;> decide
  · simp [runChangeTrace]
  · simp [runMonorepoChangeTrace]

theorem rankLevels_rank_ge (sd : List String) (l : List (List String)) (r : Nat) :
    ∀ lvl ∈ rankLevels sd l r, r ≤ lvl.rank := by
  induction l generalizing r with
  | nil => simp [rankLevels]
  | cons p rest ih =>
    intro lvl hlvl
    simp only [rankLevels, List.mem_cons] at hlvl
    rcases hlvl with rfl | h
    · exact le_refl r
    · exact le_trans (Nat.le_succ r) (ih (r + 1) lvl h)

theorem rankLevels_chain (sd : List String) (l : List (List String)) (r : Nat) :
    List.Chain' (fun a b => a.rank < b.rank) (rankLevels sd l r) := by
  induction l generalizing r with
  | nil => simp [rankLevels]
  | cons p rest ih =>
    rw [rankLevels, List.chain'_cons']
    refine ⟨?_, ih (r + 1)⟩
    intro b hb
    have hmem : b ∈ rankLevels sd rest (r + 1) := by
      cases hrest : rankLevels sd rest (r + 1) with
      | nil => simp [hrest] at hb
      | cons x xs => simp [hrest] at hb; simp [hrest, hb]
    have hge := rankLevels_rank_ge sd rest (r + 1) b hmem
    exact Nat.lt_of_lt_of_le (Nat.lt_succ_self r) hge

theorem rankLevels_mem_spec (sd : List String) (l : List (List String)) (r : Nat) :
    ∀ lvl ∈ rankLevels sd l r, lvl.isCurrent = (lvl.path == sd) ∧ lvl.path ∈ l := by
  induction l generalizing r with
  | nil => simp [rankLevels]
  | cons p rest ih =>
    intro lvl hlvl
    simp only [rankLevels, List.mem_cons] at hlvl
    rcases hlvl with rfl | h
    · exact ⟨rfl, List.mem_cons_self p rest⟩
    · obtain ⟨h1, h2⟩ := ih (r + 1) lvl h
      exact ⟨h1, List.mem_cons_of_mem p h2⟩

theorem rankLevels_current_max (sd : List String) (l : List (List String)) (r : Nat)
    (hpw : l.Pairwise (fun a b => a.length < b.length))
    (hle : ∀ p ∈ l, p.length ≤ sd.length) :
    ∀ lvl ∈ rankLevels sd l r, lvl.isCurrent = true →
    ∀ lvl' ∈ rankLevels sd l r, lvl'.rank ≤ lvl.rank := by
  induction l generalizing r with
  | nil => simp [rankLevels]
  | cons p rest ih =>
    rw [List.pairwise_cons] at hpw
    intro lvl hlvl hcur lvl' hlvl'
    simp only [rankLevels, List.mem_cons] at hlvl hlvl'
    rcases hlvl with rfl | h
    · have hps : p = sd := by simpa using hcur
      rcases hlvl' with rfl | h'
      · exact le_refl _
      · exfalso
        obtain ⟨-, hq⟩ := rankLevels_mem_spec sd rest (r + 1) lvl' h'
        have hgt : p.length < lvl'.path.length := hpw.1 _ hq
        have hb : lvl'.path.length ≤ sd.length := hle _ (List.mem_cons_of_mem p hq)
        rw [hps] at hgt
        omega
    · have htail := ih (r + 1) hpw.2 (fun q hq => hle q (List.mem_cons_of_mem p hq)) lvl h hcur
      rcases hlvl' with rfl | h'
      · have hge := rankLevels_rank_ge sd rest (r + 1) lvl h
        exact Nat.le_of_succ_le hge
      · exact htail lvl' h'

theorem prefixesUp_pairwise (sd : List String) :
    (prefixesUp sd).Pairwise (fun a b => a.length < b.length) := by
  induction sd with
  | nil => simp [prefixesUp]
  | cons d rest ih =>
    rw [prefixesUp, List.pairwise_cons]
    constructor
    · intro q hq
      obtain ⟨p, -, rfl⟩ := List.mem_map.mp hq
      simp
    · exact List.Pairwise.map _ (by intro a b hab; simpa using hab) ih

theorem prefixesUp_le (sd : List String) :
    ∀ p ∈ prefixesUp sd, p.length ≤ sd.length := by
  induction sd with
  | nil => simp [prefixesUp]
  | cons d rest ih =>
    intro p hp
    rw [prefixesUp] at hp
    rcases List.mem_cons.mp hp with rfl | h
    · simp
    · obtain ⟨q, hq, rfl⟩ := List.mem_map.mp h
      simpa using ih q hq

/-- C7: `resolveChain` returns the chain in strictly increasing rank
order; a level is marked current exactly when its path is the starting
directory, the current level has the highest rank, and the chain can
consist of the current level alone (zero ancestors). -/
theorem resolveChainOrdered (hasRoot : List String → Bool) (startDir : List String)
    (lvl lvl' : ChainLevel)
    (h1 : lvl ∈ resolveChain hasRoot startDir)
    (h2 : lvl' ∈ resolveChain hasRoot startDir) :
    List.Chain' (fun a b => a.rank < b.rank) (resolveChain hasRoot startDir) ∧
    (lvl.isCurrent = true ↔ lvl.path = startDir) ∧
    (lvl.isCurrent = true → lvl'.rank ≤ lvl.rank) ∧
    resolveChain (fun p => decide (p = (["r"] : List String))) ["r"] =
      [⟨["r"], 0, true⟩] := by
  refine ⟨rankLevels_chain _ _ _, ?_, ?_, by decide⟩
  · have hspec := (rankLevels_mem_spec startDir _ 0 lvl h1).1
    rw [hspec]
    simp
  · intro hcur
    exact rankLevels_current_max startDir _ 0
      ((prefixesUp_pairwise startDir).filter hasRoot)
      (fun p hp => prefixesUp_le startDir p (List.mem_of_mem_filter hp))
      lvl h1 hcur lvl' h2

/-- C7 witness: a two-level chain (global root plus current directory)
instantiates the ordering theorem. -/
theorem resolveChainOrderedWitness :
    ((⟨["a", "b"], 1, true⟩ : ChainLevel) ∈
      resolveChain (fun p => decide (p = ([] : List String)) || decide (p = ["a", "b"])) ["a", "b"]) ∧
    ((⟨[], 0, false⟩ : ChainLevel) ∈
      resolveChain (fun p => decide (p = ([] : List String)) || decide (p = ["a", "b"])) ["a", "b"]) ∧
    (List.Chain' (fun a b => a.rank < b.rank)
      (resolveChain (fun p => decide (p = ([] : List String)) || decide (p = ["a", "b"])) ["a", "b"]) ∧
    ((⟨["a", "b"], 1, true⟩ : ChainLevel).isCurrent = true ↔
      (⟨["a", "b"], 1, true⟩ : ChainLevel).path = ["a", "b"]) ∧
    ((⟨["a", "b"], 1, true⟩ : ChainLevel).isCurrent = true →
      (⟨[], 0, false⟩ : ChainLevel).rank ≤ (⟨["a", "b"], 1, true⟩ : ChainLevel).rank) ∧
    resolveChain (fun p => decide (p = (["r"] : List String))) ["r"] =
      [⟨["r"], 0, true⟩]) :=
  ⟨by decide, by decide,
   resolveChainOrdered (fun p => decide (p = ([] : List String)) || decide (p = ["a", "b"]))
     ["a", "b"] ⟨["a", "b"], 1, true⟩ ⟨[], 0, false⟩ (by decide) (by decide)⟩


theorem applyStep_other (orig : FsState) (force : Bool) (acc : FsState)
    (m : String × String) (t : String) (h : m.1 ≠ t) :
    applyStep orig force acc m t = acc t := by
  have hne : t ≠ m.1 := fun hh => h hh.symm
  cases hpi : planItem orig m.1 m.2 <;>
    simp only [applyStep, hpi] <;>
    (try split) <;>
    simp [applyTask, hne]

theorem foldl_applyStep_other (orig : FsState) (force : Bool)
    (l : List (String × String)) (acc : FsState) (t : String)
    (h : ∀ m ∈ l, m.1 ≠ t) :
    (l.foldl (applyStep orig force) acc) t = acc t := by
  induction l generalizing acc with
  | nil => rfl
  | cons m rest ih =>
    rw [List.foldl_cons]
    rw [ih _ (fun m' hm' => h m' (List.mem_cons_of_mem m hm'))]
    exact applyStep_other orig force acc m t (h m (List.mem_cons_self m rest))

theorem planItem_noop (fs : FsState) (t s : String)
    (h : planItem fs t s = PlanItem.noop) : fs t = FsEntry.symlink s := by
  unfold planItem at h
  cases hfs : fs t <;> rw [hfs] at h
  · simp at h
  · simp at h
  · simp at h
  · rename_i d
    by_cases hd : d = s
    · rw [hd]
    · simp [hd] at h

theorem applyStep_self (orig : FsState) (acc : FsState) (m : String × String)
    (hacc : acc m.1 = orig m.1) :
    applyStep orig true acc m m.1 = FsEntry.symlink m.2 := by
  cases hpi : planItem orig m.1 m.2 <;> simp [applyStep, hpi, applyTask]
  rw [hacc]
  exact planItem_noop orig m.1 m.2 hpi

theorem applyPlan_mem (fs : FsState) (ms : List (String × String))
    (hdist : ms.Pairwise (fun a b => a.1 ≠ b.1)) (m : String × String)
    (hm : m ∈ ms) : applyPlan fs ms true m.1 = FsEntry.symlink m.2 := by
  obtain ⟨l1, l2, rfl⟩ := List.append_of_mem hm
  rw [applyPlan, List.foldl_append, List.foldl_cons]
  rw [List.pairwise_append] at hdist
  obtain ⟨-, hp2, hcross⟩ := hdist
  rw [List.pairwise_cons] at hp2
  have hl2 : ∀ m' ∈ l2, m'.1 ≠ m.1 := fun m' hm' => (hp2.1 m' hm').symm
  rw [foldl_applyStep_other _ _ l2 _ _ hl2]
  have hl1 : ∀ m' ∈ l1, m'.1 ≠ m.1 :=
    fun m' hm' => hcross m' hm' m (List.mem_cons_self m l2)
  exact applyStep_self fs _ m (foldl_applyStep_other _ _ l1 fs m.1 hl1)

/-- C2: after applying the plan (with conflicts forced), re-planning
against the unchanged filesystem yields zero tasks and zero conflicts:
every mapped target is a symlink to its correct source and is classified
as a no-op. -/
theorem planApplyIdempotent (fs : FsState) (ms : List (String × String))
    (hdist : ms.Pairwise (fun a b => a.1 ≠ b.1)) (m : String × String)
    (hm : m ∈ ms) :
    applyPlan fs ms true m.1 = FsEntry.symlink m.2 ∧
    planItem (applyPlan fs ms true) m.1 m.2 = PlanItem.noop ∧
    planTasks (applyPlan fs ms true) ms = [] ∧
    planConflicts (applyPlan fs ms true) ms = [] := by
  refine ⟨applyPlan_mem fs ms hdist m hm, ?_, ?_, ?_⟩
  · simp [planItem, applyPlan_mem fs ms hdist m hm]
  · rw [planTasks, List.filter_eq_nil_iff]
    intro a ha
    simp [planItem, applyPlan_mem fs ms hdist a ha, isTask]
  · rw [planConflicts, List.filter_eq_nil_iff]
    intro a ha
    simp [planItem, applyPlan_mem fs ms hdist a ha, isConflict]

/-- C2 witness: a three-mapping plan over a filesystem with one
pre-existing file is idempotent after a forced apply. -/
theorem planApplyIdempotentWitness :
    (([("t1", "s1"), ("t2", "s2"), ("conf", "s3")] : List (String × String)).Pairwise
      (fun a b => a.1 ≠ b.1)) ∧
    ((("t1", "s1") : String × String) ∈
      ([("t1", "s1"), ("t2", "s2"), ("conf", "s3")] : List (String × String))) ∧
    (applyPlan (fun t => if t = "conf" then FsEntry.file "orig" else FsEntry.absent)
        [("t1", "s1"), ("t2", "s2"), ("conf", "s3")] true ("t1", "s1").1 =
      FsEntry.symlink ("t1", "s1").2 ∧
    planItem (applyPlan (fun t => if t = "conf" then FsEntry.file "orig" else FsEntry.absent)
        [("t1", "s1"), ("t2", "s2"), ("conf", "s3")] true) ("t1", "s1").1 ("t1", "s1").2 =
      PlanItem.noop ∧
    planTasks (applyPlan (fun t => if t = "conf" then FsEntry.file "orig" else FsEntry.absent)
        [("t1", "s1"), ("t2", "s2"), ("conf", "s3")] true)
      [("t1", "s1"), ("t2", "s2"), ("conf", "s3")] = [] ∧
    planConflicts (applyPlan (fun t => if t = "conf" then FsEntry.file "orig" else FsEntry.absent)
        [("t1", "s1"), ("t2", "s2"), ("conf", "s3")] true)
      [("t1", "s1"), ("t2", "s2"), ("conf", "s3")] = []) :=
  ⟨by decide, by decide,
   planApplyIdempotent (fun t => if t = "conf" then FsEntry.file "orig" else FsEntry.absent)
     [("t1", "s1"), ("t2", "s2"), ("conf", "s3")] (by decide) ("t1", "s1") (by decide)⟩

theorem backupEntry_fst (fs : FsState) (force : Bool) (m : String × String)
    (e : String × FsEntry) (h : backupEntry fs force m = some e) : e.1 = m.1 := by
  unfold backupEntry at h
  split at h <;> (try split at h) <;>
    first
      | (injection h with h2; subst h2; rfl)
      | (injection h)

theorem backupFor_pairwise (fs : FsState) (ms : List (String × String)) (force : Bool)
    (hdist : ms.Pairwise (fun a b => a.1 ≠ b.1)) :
    (backupFor fs ms force).Pairwise (fun a b => a.1 ≠ b.1) := by
  rw [backupFor]
  refine List.Pairwise.filterMap _ ?_ hdist
  intro a a' hne b hb b' hb'
  rw [backupEntry_fst fs force a b hb, backupEntry_fst fs force a' b' hb']
  exact hne

theorem undo_foldl_other (l : List (String × FsEntry)) (acc : FsState) (t : String)
    (h : ∀ p ∈ l, p.1 ≠ t) : (l.foldl undoStep acc) t = acc t := by
  induction l generalizing acc with
  | nil => rfl
  | cons p rest ih =>
    rw [List.foldl_cons]
    rw [ih _ (fun p' hp' => h p' (List.mem_cons_of_mem p hp'))]
    have hne : t ≠ p.1 := fun hh => h p (List.mem_cons_self p rest) hh.symm
    simp [undoStep, hne]

theorem undo_mem (fs' : FsState) (backup : List (String × FsEntry))
    (hdist : backup.Pairwise (fun a b => a.1 ≠ b.1)) (e : String × FsEntry)
    (he : e ∈ backup) : undo fs' backup e.1 = e.2 := by
  obtain ⟨l1, l2, rfl⟩ := List.append_of_mem he
  rw [undo, List.foldl_append, List.foldl_cons]
  rw [List.pairwise_append] at hdist
  obtain ⟨-, hp2, -⟩ := hdist
  rw [List.pairwise_cons] at hp2
  have hl2 : ∀ p ∈ l2, p.1 ≠ e.1 := fun p hp => (hp2.1 p hp).symm
  rw [undo_foldl_other l2 _ _ hl2]
  simp [undoStep]

/-- C3: a target that exists as a regular file appears in the conflict
list and not in the task list, and under a forced apply its original
content is captured in the backup session and restored by undo. -/
theorem conflictBackupAndUndo (fs : FsState) (ms : List (String × String))
    (hdist : ms.Pairwise (fun a b => a.1 ≠ b.1)) (t s content : String)
    (hm : (t, s) ∈ ms) (hfile : fs t = FsEntry.file content) :
    (t, s) ∈ planConflicts fs ms ∧
    (t, s) ∉ planTasks fs ms ∧
    (t, FsEntry.file content) ∈ backupFor fs ms true ∧
    undo (applyPlan fs ms true) (backupFor fs ms true) t = FsEntry.file content := by
  have hpi : planItem fs t s = PlanItem.conflictFile := by simp [planItem, hfile]
  have hb : (t, FsEntry.file content) ∈ backupFor fs ms true := by
    rw [backupFor, List.mem_filterMap]
    exact ⟨(t, s), hm, by simp [backupEntry, hpi, hfile]⟩
  refine ⟨?_, ?_, hb, ?_⟩
  · rw [planConflicts, List.mem_filter]
    exact ⟨hm, by simp [hpi, isConflict]⟩
  · rw [planTasks, List.mem_filter]
    rintro ⟨-, hbad⟩
    simp [hpi, isTask] at hbad
  · have := undo_mem (applyPlan fs ms true) (backupFor fs ms true)
      (backupFor_pairwise fs ms true hdist) (t, FsEntry.file content) hb
    simpa using this

/-- C3 witness: the conflict, backup and undo theorem instantiated at a
filesystem with one pre-existing file at target conf. -/
theorem conflictBackupAndUndoWitness :
    (([("t1", "s1"), ("t2", "s2"), ("conf", "s3")] : List (String × String)).Pairwise
      (fun a b => a.1 ≠ b.1)) ∧
    ((("conf", "s3") : String × String) ∈
      ([("t1", "s1"), ("t2", "s2"), ("conf", "s3")] : List (String × String))) ∧
    ((fun t => if t = "conf" then FsEntry.file "orig" else FsEntry.absent) "conf" =
      FsEntry.file "orig") ∧
    (("conf", "s3") ∈ planConflicts
        (fun t => if t = "conf" then FsEntry.file "orig" else FsEntry.absent)
        [("t1", "s1"), ("t2", "s2"), ("conf", "s3")] ∧
    ("conf", "s3") ∉ planTasks
        (fun t => if t = "conf" then FsEntry.file "orig" else FsEntry.absent)
        [("t1", "s1"), ("t2", "s2"), ("conf", "s3")] ∧
    ("conf", FsEntry.file "orig") ∈ backupFor
        (fun t => if t = "conf" then FsEntry.file "orig" else FsEntry.absent)
        [("t1", "s1"), ("t2", "s2"), ("conf", "s3")] true ∧
    undo (applyPlan (fun t => if t = "conf" then FsEntry.file "orig" else FsEntry.absent)
        [("t1", "s1"), ("t2", "s2"), ("conf", "s3")] true)
      (backupFor (fun t => if t = "conf" then FsEntry.file "orig" else FsEntry.absent)
        [("t1", "s1"), ("t2", "s2"), ("conf", "s3")] true) "conf" =
      FsEntry.file "orig") :=
  ⟨by decide, by decide, by decide,
   conflictBackupAndUndo
     (fun t => if t = "conf" then FsEntry.file "orig" else FsEntry.absent)
     [("t1", "s1"), ("t2", "s2"), ("conf", "s3")] (by decide)
     "conf" "s3" "orig" (by decide) (by decide)⟩

end Agentlinker
